import Mathlib

/-!
Verification of the GoldenCheetah `RideFileCache` engine against its design
specification.  The repository ships only the header `src/RideFileCache.h`
(declarations, the cache version constant, and the binary header layout); the
method bodies live in a `.cpp` file that is not part of the sources here.
Where a definition below embeds code that exists only as a declaration, its
doc comment says so and the definition follows the specification text.
-/

namespace RideFileCache

/-- The on-disk cache format version, from `RideFileCache.h`:
`static const unsigned int RideFileCacheVersion = 1;`. -/
def RideFileCacheVersion : Nat := 1

/-- Modelled from the spec: a channel's fixed attributes (the bodies of
`RideFile::decimalsFor/minimumFor/maximumFor` are not in the sources).
`decimals` is the number of decimal places, `minv`/`maxv` the domain bounds. -/
structure SeriesInfo where
  decimals : Nat
  minv : ℚ
  maxv : ℚ
deriving Repr, DecidableEq

/-- Modelled from the spec: the power (watts) channel, zero decimal places,
domain `[0, 2500]` (representative bounds; the spec gives none). -/
def wattsInfo : SeriesInfo := ⟨0, 0, 2500⟩

/-!  ## Curve Engine (spec §4.2)

Modelled from the spec: the body of `MeanMaxComputer::run` is not in the
sources.  Samples are already on the uniform 1-second grid (the cache's fixed
time resolution); for each window length `d` from 1 to N the engine takes the
maximum `d`-second rolling average and quantizes it by `10^decimals`. -/

/-- Sums of every contiguous window of exactly `d` samples, left to right. -/
def slidingSums (d : Nat) : List ℚ → List ℚ
  | [] => []
  | x :: rest =>
      if d ≤ (x :: rest).length then
        ((x :: rest).take d).sum :: slidingSums d rest
      else []

/-- Best (maximum) window total over all windows of exactly `d` samples,
`0` when no such window exists. -/
def bestSum (d : Nat) (xs : List ℚ) : ℚ :=
  (slidingSums d xs).foldr max 0

/-- Best `d`-second rolling average: the maximal window total divided by `d`. -/
def bestAvg (d : Nat) (xs : List ℚ) : ℚ :=
  bestSum d xs / d

/-- Quantize a value to its scaled-integer storage form: multiply by
`10^decimals` and round (spec §4.2). -/
def quantize (dp : Nat) (q : ℚ) : ℤ :=
  round (q * 10 ^ dp)

/-- Modelled from the spec: the mean-maximal curve of a 1 Hz sample sequence —
entry for duration `d` (list index `d - 1`) is the quantized best `d`-second
rolling average, for `d = 1 .. N` where `N` is the sample count. -/
def meanMaxCurve (dp : Nat) (xs : List ℚ) : List ℤ :=
  (List.range xs.length).map (fun i => quantize dp (bestAvg (i + 1) xs))

/-! ## Histogram Engine (spec §4.3)

Modelled from the spec: the body of `computeDistribution` is not in the
sources.  Bin width 1 (or 0.1 when `decimals > 0`), bin count
`ceil((max - min)/width) + 1`; each sample is clamped into the domain and its
bin incremented by one sampling interval. -/

/-- Histogram bin width: `1` when the channel has no decimal places,
`0.1` otherwise. -/
def binWidth (dp : Nat) : ℚ :=
  if dp = 0 then 1 else 1 / 10

/-- Number of histogram bins: `ceil((maxv - minv) / binWidth) + 1`. -/
def binCount (dp : Nat) (lo hi : ℚ) : Nat :=
  (⌈(hi - lo) / binWidth dp⌉).toNat + 1

/-- Clamp a sample value into the channel domain `[lo, hi]`. -/
def clampVal (lo hi v : ℚ) : ℚ :=
  max lo (min hi v)

/-- Bin index of a sample value: clamp into the domain, offset by `lo`,
divide by the bin width and truncate. -/
def binIndex (dp : Nat) (lo hi v : ℚ) : Nat :=
  (⌊(clampVal lo hi v - lo) / binWidth dp⌋).toNat

/-- Add one sampling interval of duration to bin `i`. -/
def incBin (bins : List Nat) (i : Nat) : List Nat :=
  bins.set i (bins.getD i 0 + 1)

/-- Modelled from the spec: `computeDistribution` — start from all-zero bins
and, for each sample, increment the bin its clamped value falls in. -/
def computeDistribution (dp : Nat) (lo hi : ℚ) (xs : List ℚ) : List Nat :=
  xs.foldl (fun bins v => incBin bins (binIndex dp lo hi v))
    (List.replicate (binCount dp lo hi) 0)

/-! ## Derived-Channel Engine (spec §4.4)

Modelled from the spec: the bodies of `computeMeanMaxNP`,
`computeDistributionNP`, `computeMeanMaxXPower` and
`computeDistributionXPower` are not in the sources.  Both derived channels
are functions of the power channel's data, never of their own raw samples. -/

/-- Rolling averages over every window of exactly `w` samples. -/
def slidingAvg (w : Nat) (xs : List ℚ) : List ℚ :=
  (slidingSums w xs).map (fun s => s / w)

/-- Modelled from the spec: the normalized-power sample transform — a
30-second rolling average followed by a fourth-power energy weighting,
applied to the raw power samples. -/
def npSampleTransform (powerSamples : List ℚ) : List ℚ :=
  (slidingAvg 30 powerSamples).map (fun v => v ^ 4)

/-- Modelled from the spec: the normalized-power mean-max curve is the plain
Curve Engine run over the transformed power sample sequence. -/
def computeMeanMaxNP (dp : Nat) (powerSamples : List ℚ) : List ℤ :=
  meanMaxCurve dp (npSampleTransform powerSamples)

/-- Modelled from the spec: the normalized-power distribution is the plain
Histogram Engine run over the transformed power sample sequence. -/
def computeDistributionNP (dp : Nat) (lo hi : ℚ) (powerSamples : List ℚ) :
    List Nat :=
  computeDistribution dp lo hi (npSampleTransform powerSamples)

/-- Modelled from the spec: the per-sample cube weighting used by the xPower
variant (the exact exponents are the spec's §9 open question; cube weighting
is the documented default). -/
def xPowerSampleTransform (powerSamples : List ℚ) : List ℚ :=
  powerSamples.map (fun v => v ^ 3)

/-- Modelled from the spec: the xPower mean-max curve is the plain Curve
Engine run over the cube-weighted power sample sequence. -/
def computeMeanMaxXPower (dp : Nat) (powerSamples : List ℚ) : List ℤ :=
  meanMaxCurve dp (xPowerSampleTransform powerSamples)

/-- Add `n` units of duration to bin `i`. -/
def addBin (bins : List Nat) (i : Nat) (n : Nat) : List Nat :=
  bins.set i (bins.getD i 0 + n)

/-- Modelled from the spec: the xPower distribution is computed directly from
the power distribution by redistributing each bin's duration to the bin of
its cube-weighted representative value. -/
def computeDistributionXPower (dp : Nat) (lo hi : ℚ) (powerDist : List Nat) :
    List Nat :=
  (List.range powerDist.length).foldl
    (fun acc (i : Nat) =>
      addBin acc (binIndex dp lo hi ((lo + (i : ℚ) * binWidth dp) ^ 3))
        (powerDist.getD i 0))
    (List.replicate (binCount dp lo hi) 0)

/-! ## Cache Store (spec §4.5, header layout from `RideFileCache.h`)

The in-memory arrays that are persisted: one mean-max array and one
distribution array per series, in the header's fixed order
watts, hr, cad, nm, kph, xPower, np. -/

/-- The persisted per-channel arrays of a `RideFileCache`, as declared in
`RideFileCache.h` (entries are `unsigned long` scaled integers). -/
structure RideFileCacheData where
  wattsMeanMax : List Nat
  hrMeanMax : List Nat
  cadMeanMax : List Nat
  nmMeanMax : List Nat
  kphMeanMax : List Nat
  xPowerMeanMax : List Nat
  npMeanMax : List Nat
  wattsDistribution : List Nat
  hrDistribution : List Nat
  cadDistribution : List Nat
  nmDistribution : List Nat
  kphDistribution : List Nat
  xPowerDistribution : List Nat
  npDistribution : List Nat
deriving Repr, DecidableEq

/-- The fourteen persisted blocks in the serialization order fixed by
`RideFileCacheHeader`: seven mean-max arrays then seven distribution
arrays, each in series order watts, hr, cad, nm, kph, xPower, np. -/
def blocks (c : RideFileCacheData) : List (List Nat) :=
  [c.wattsMeanMax, c.hrMeanMax, c.cadMeanMax, c.nmMeanMax, c.kphMeanMax,
   c.xPowerMeanMax, c.npMeanMax,
   c.wattsDistribution, c.hrDistribution, c.cadDistribution,
   c.nmDistribution, c.kphDistribution, c.xPowerDistribution,
   c.npDistribution]

/-- A stored 32-bit word: values are written as `uint32_t`, so they are
reduced modulo `2^32`. -/
def word (x : Nat) : Nat := x % 2 ^ 32

/-- Modelled from the spec: `serialize` — the body is not in the sources;
§4.5 fixes the layout as the fifteen-word header (`RideFileCacheHeader`:
version then the fourteen element counts) followed by the fourteen blocks
of 32-bit words, contiguously. -/
def serialize (c : RideFileCacheData) : List Nat :=
  RideFileCacheVersion ::
    ((blocks c).map (fun b => word b.length) ++
      ((blocks c).map (fun b => b.map word)).flatten)

/-- Split a flat body into consecutive blocks of the given sizes; `none`
when the declared counts do not match the actual body length
(`CorruptArtifact`). -/
def splitSizes : List Nat → List Nat → Option (List (List Nat))
  | [], body => if body.isEmpty then some [] else none
  | n :: ns, body =>
      if n ≤ body.length then
        (splitSizes ns (body.drop n)).map (fun rest => body.take n :: rest)
      else none

/-- Read the fourteen counts and the fourteen blocks that follow the
version word, rejecting a size mismatch (`CorruptArtifact`). -/
def readBody (rest : List Nat) : Option RideFileCacheData :=
  match rest with
  | n1 :: n2 :: n3 :: n4 :: n5 :: n6 :: n7 ::
    m1 :: m2 :: m3 :: m4 :: m5 :: m6 :: m7 :: body =>
      match splitSizes [n1, n2, n3, n4, n5, n6, n7,
                        m1, m2, m3, m4, m5, m6, m7] body with
      | some [b1, b2, b3, b4, b5, b6, b7, d1, d2, d3, d4, d5, d6, d7] =>
          some ⟨b1, b2, b3, b4, b5, b6, b7, d1, d2, d3, d4, d5, d6, d7⟩
      | _ => none
  | _ => none

/-- Modelled from the spec: `readCache` — the body is not in the sources;
it reads the header, rejects a version that differs from
`RideFileCacheVersion` (`VersionMismatch`), then reads each block using the
header's counts. -/
def readCache (data : List Nat) : Option RideFileCacheData :=
  match data with
  | [] => none
  | v :: rest =>
      if v = RideFileCacheVersion then readBody rest else none

/-- All persisted quantities fit in a 32-bit word, so `uint32_t` storage is
lossless: every block's length and every entry is below `2^32`. -/
def smallData (c : RideFileCacheData) : Prop :=
  ∀ b ∈ blocks c, b.length < 2 ^ 32 ∧ ∀ x ∈ b, x < 2 ^ 32

instance (c : RideFileCacheData) : Decidable (smallData c) := by
  unfold smallData; infer_instance

/-- Modelled from the spec: `refreshCache` — the body is not in the sources;
§4.5/§7: a missing, version-mismatched or corrupt artifact triggers a full
recompute of every channel (`fresh`) and the artifact is overwritten with
the serialization of the recomputed data; a valid artifact is reused as-is.
Returns the arrays served to the consumer and the artifact now on disk. -/
def refreshCache (stored : Option (List Nat)) (fresh : RideFileCacheData) :
    RideFileCacheData × List Nat :=
  match stored with
  | none => (fresh, serialize fresh)
  | some d =>
      match readCache d with
      | some c => (c, d)
      | none => (fresh, serialize fresh)

/-- The in-memory state right after a cache read: the persisted arrays plus
the seven per-channel date-of-best vectors (dates as day numbers). -/
structure CacheState where
  data : RideFileCacheData
  meanMaxDates : List (List Nat)
deriving Repr, DecidableEq

/-- Modelled from the spec: reading a cache file fills only the persisted
arrays — the §4.5 layout has no date vectors, so all seven date-of-best
vectors stay empty. -/
def readCacheState (bytes : List Nat) : Option CacheState :=
  (readCache bytes).map (fun c => ⟨c, List.replicate 7 []⟩)

/-! ## Aggregator (spec §4.6)

Modelled from the spec: the date-range constructor's body is not in the
sources.  A `DayCache` is one constituent recording's cached result. -/

/-- One constituent recording: its date (as a day number), its mean-max
curve and its distribution for the channel being aggregated. -/
structure DayCache where
  date : Nat
  meanMax : List ℤ
  dist : List Nat
deriving Repr, DecidableEq

/-- Keep the better of the current best and a new candidate: strictly larger
value wins; on an equal value the earlier date wins. -/
def pickBetter : Option (ℤ × Nat) → ℤ × Nat → Option (ℤ × Nat)
  | none, p => some p
  | some (bv, bd), (v, dt) =>
      if bv < v then some (v, dt)
      else if bv = v ∧ dt < bd then some (v, dt)
      else some (bv, bd)

/-- Fold one recording into the running best at duration `d`: recordings too
short to have an entry at `d` do not participate. -/
def betterAt (d : Nat) (acc : Option (ℤ × Nat)) (r : DayCache) :
    Option (ℤ × Nat) :=
  match r.meanMax[d]? with
  | none => acc
  | some v => pickBetter acc (v, r.date)

/-- Modelled from the spec: the aggregate best at duration `d` — the maximum
curve value at `d` across the recordings, paired with the earliest date it
is attained on; `none` when no recording reaches duration `d`. -/
def bestAt (d : Nat) (recs : List DayCache) : Option (ℤ × Nat) :=
  recs.foldl (betterAt d) none

/-- Pointwise sum of two bin vectors, the longer vector's tail kept. -/
def addVec : List Nat → List Nat → List Nat
  | [], ys => ys
  | x :: xs, [] => x :: xs
  | x :: xs, y :: ys => (x + y) :: addVec xs ys

/-- Modelled from the spec: the aggregate distribution — bins are summed
across all recordings (durations are additive). -/
def aggDist (recs : List DayCache) : List Nat :=
  recs.foldl (fun acc r => addVec acc r.dist) []

/-! ## Concrete fixtures used by the spec's scenarios -/

/-- The spec §8 concrete power recording: 10 seconds at 1 Hz. -/
def scenarioSamples : List ℚ :=
  [100, 100, 100, 200, 200, 200, 100, 100, 100, 100]

/-- Day-1 recording of the spec §8 aggregation scenario:
`curve[5] = 250`. -/
def day1Cache : DayCache := ⟨1, [0, 0, 0, 0, 0, 250], [1, 2]⟩

/-- Day-2 recording of the spec §8 aggregation scenario:
`curve[5] = 300`. -/
def day2Cache : DayCache := ⟨2, [0, 0, 0, 0, 0, 300], [3, 4]⟩

/-- The candidate (value, date) pairs the aggregator considers at duration
`d`: one per recording whose curve reaches duration `d`. -/
def pairsAt (d : Nat) (recs : List DayCache) : List (ℤ × Nat) :=
  recs.filterMap (fun r => (r.meanMax[d]?).map (fun v => (v, r.date)))

/-- A small concrete cache used to exercise the serialization round trip. -/
def exampleCache : RideFileCacheData :=
  ⟨[1], [2], [3], [4], [5], [6], [7],
   [8], [9], [10], [11], [12], [13], [14, 15]⟩

/-- A cache holding one in-memory entry too large for a 32-bit storage
word. -/
def overflowCache : RideFileCacheData :=
  ⟨[2 ^ 32], [], [], [], [], [], [], [], [], [], [], [], [], []⟩

/-! ## Curve Engine lemmas -/

theorem slidingSums_cons_of_le {d : Nat} {x : ℚ} {rest : List ℚ}
    (h : d ≤ rest.length + 1) :
    slidingSums d (x :: rest) =
      ((x :: rest).take d).sum :: slidingSums d rest := by
  rw [slidingSums]
  rw [if_pos (by simpa using h)]

theorem slidingSums_eq_nil_of_lt {d : Nat} {xs : List ℚ}
    (h : xs.length < d) : slidingSums d xs = [] := by
  cases xs with
  | nil => rfl
  | cons x rest =>
      rw [slidingSums]
      rw [if_neg (by omega)]

theorem foldr_max_nonneg (l : List ℚ) : 0 ≤ l.foldr max 0 := by
  induction l with
  | nil => exact le_refl 0
  | cons a l ih => exact le_trans ih (le_max_right a _)

theorem bestSum_nonneg (d : Nat) (xs : List ℚ) : 0 ≤ bestSum d xs :=
  foldr_max_nonneg _

theorem sum_take_le_sum_take_succ {xs : List ℚ} (h : ∀ x ∈ xs, 0 ≤ x)
    (d : Nat) : (xs.take d).sum ≤ (xs.take (d + 1)).sum := by
  rw [List.take_succ, List.sum_append]
  have : 0 ≤ (xs[d]?.toList).sum := by
    cases hx : xs[d]? with
    | none => simp
    | some v => simpa using h v (List.getElem?_mem hx)
  linarith

theorem sum_nonneg_of_mem {xs : List ℚ} (h : ∀ x ∈ xs, 0 ≤ x) :
    0 ≤ xs.sum :=
  List.sum_nonneg h

/-- Best window totals grow with the window length: on non-negative samples
an optimal `d`-second window extends to a `(d+1)`-second window of at least
the same total. -/
theorem bestSum_le_succ {xs : List ℚ} (hpos : ∀ x ∈ xs, 0 ≤ x) {d : Nat}
    (hd : d + 1 ≤ xs.length) : bestSum d xs ≤ bestSum (d + 1) xs := by
  induction xs with
  | nil => simp at hd
  | cons x rest ih =>
      have hposr : ∀ x ∈ rest, 0 ≤ x := fun y hy => hpos y (List.mem_cons_of_mem _ hy)
      have hx : 0 ≤ x := hpos x (List.mem_cons_self x rest)
      have hlen : d ≤ rest.length := by
        simpa using hd
      rw [bestSum, bestSum, slidingSums_cons_of_le (by omega),
        slidingSums_cons_of_le (by omega), List.foldr_cons, List.foldr_cons]
      by_cases hc : d + 1 ≤ rest.length
      · exact max_le_max (sum_take_le_sum_take_succ hpos d) (ih hposr hc)
      · have hr : rest.length = d := by omega
        have e1 : slidingSums (d + 1) rest = [] :=
          slidingSums_eq_nil_of_lt (by omega)
        have htake : (x :: rest).take (d + 1) = x :: rest :=
          List.take_of_length_le (by simp [hr])
        have hsum : ((x :: rest).take (d + 1)).sum = x + rest.sum := by
          rw [htake, List.sum_cons]
        have hbound : ∀ q, q ≤ x + rest.sum →
            q ≤ ((x :: rest).take (d + 1)).sum ⊔ (slidingSums (d + 1) rest).foldr max 0 := by
          intro q hq
          exact le_trans (by rw [hsum]; exact hq) (le_max_left _ _)
        apply max_le
        · apply hbound
          calc ((x :: rest).take d).sum ≤ ((x :: rest).take (d + 1)).sum :=
                sum_take_le_sum_take_succ hpos d
            _ = x + rest.sum := hsum
        · rcases Nat.eq_zero_or_pos d with h0 | hdpos
          · subst h0
            have : rest = [] := List.eq_nil_of_length_eq_zero hr
            subst this
            apply hbound
            simp [slidingSums]
            exact hx
          · obtain ⟨y, rest', hy⟩ : ∃ y rest', rest = y :: rest' := by
              cases rest with
              | nil => simp at hr; omega
              | cons y rest' => exact ⟨y, rest', rfl⟩
            subst hy
            simp only [List.length_cons] at hr
            have hlt : rest'.length < d := by omega
            rw [slidingSums_cons_of_le (by omega),
              slidingSums_eq_nil_of_lt hlt]
            have htr : ((y :: rest').take d).sum = (y :: rest').sum := by
              rw [List.take_of_length_le (by omega)]
            rw [List.foldr_cons, List.foldr_nil, htr]
            apply hbound
            apply max_le
            · linarith
            · have := sum_nonneg_of_mem hposr
              linarith

theorem meanMaxCurve_getD {dp i : Nat} {xs : List ℚ} (h : i < xs.length) :
    (meanMaxCurve dp xs).getD i 0 = quantize dp (bestAvg (i + 1) xs) := by
  rw [meanMaxCurve, List.getD_eq_getElem?_getD, List.getElem?_map,
    List.getElem?_range h]
  rfl

/-- Claim C6: for every channel, the mean-maximal curve has one entry per
whole second of recording duration — its length equals the sample count of
the 1 Hz series (and, the embedding being purely functional, the computed
curve is a value that is never mutated afterwards). -/
theorem claim6_curve_length :
    ∀ (dp : Nat) (xs : List ℚ), (meanMaxCurve dp xs).length = xs.length := by
  intro dp xs
  simp [meanMaxCurve]

/-- Claim C9: a channel with zero samples is not an error: the curve is
zero-length, the histogram exists with every bin zero, and both engines are
total functions (no failure is signalled). -/
theorem claim9_empty_source :
    ∀ (dp : Nat) (lo hi : ℚ),
      meanMaxCurve dp [] = [] ∧
      (computeDistribution dp lo hi []).length = binCount dp lo hi ∧
      ∀ b ∈ computeDistribution dp lo hi [], b = 0 := by
  intro dp lo hi
  refine ⟨rfl, by simp [computeDistribution], ?_⟩
  intro b hb
  exact List.eq_of_mem_replicate (by simpa [computeDistribution] using hb)

/-- Claim C1 (counterexample): the mean-maximal curve is not non-increasing
in the duration: on the recording `[200, 0, 200]` the best 2-second average
is 100 while the best 3-second average is 400/3, so
`curve[2] = 100 < 133 = curve[3]`. -/
theorem claim1_counterexample :
    ¬ ((meanMaxCurve 0 [200, 0, 200]).getD 2 0 ≤
        (meanMaxCurve 0 [200, 0, 200]).getD 1 0) := by
  have e1 : (meanMaxCurve 0 [200, 0, 200]).getD 1 0 = 100 := by
    norm_num [meanMaxCurve, bestAvg, bestSum, slidingSums, quantize,
      round_eq, List.range_succ, max_def]
  have e2 : (meanMaxCurve 0 [200, 0, 200]).getD 2 0 = 133 := by
    norm_num [meanMaxCurve, bestAvg, bestSum, slidingSums, quantize,
      round_eq, List.range_succ, max_def]
  rw [e1, e2]
  norm_num

/-- Claim C1 (amended): on non-negative samples the best window *total* is
non-decreasing in the duration — `bestSum d ≤ bestSum (d+1)`, equivalently
`d * bestAvg d ≤ (d+1) * bestAvg (d+1)` — even though the per-duration best
averages themselves (the curve entries) may increase. -/
theorem claim1_amended :
    ∀ (xs : List ℚ) (d : Nat), (∀ x ∈ xs, 0 ≤ x) → d + 1 ≤ xs.length →
      bestSum d xs ≤ bestSum (d + 1) xs ∧
      (d : ℚ) * bestAvg d xs ≤ ((d : ℚ) + 1) * bestAvg (d + 1) xs := by
  intro xs d hpos hd
  refine ⟨bestSum_le_succ hpos hd, ?_⟩
  have key : bestSum d xs ≤ bestSum (d + 1) xs := bestSum_le_succ hpos hd
  rcases Nat.eq_zero_or_pos d with h0 | hdpos
  · subst h0
    have h1 : 0 ≤ bestAvg 1 xs :=
      div_nonneg (bestSum_nonneg 1 xs) (by norm_num)
    push_cast
    simpa using h1
  · have hne : (d : ℚ) ≠ 0 := Nat.cast_ne_zero.mpr (by omega)
    have e1 : (d : ℚ) * bestAvg d xs = bestSum d xs := by
      rw [bestAvg]; field_simp
    have e2 : ((d : ℚ) + 1) * bestAvg (d + 1) xs = bestSum (d + 1) xs := by
      rw [bestAvg]; push_cast; field_simp
    rw [e1, e2]
    exact key

/-- Concrete instance of the amended C1 statement on the recording
`[1, 2]` at duration 1. -/
theorem claim1_amended_witness :
    bestSum 1 [(1 : ℚ), 2] ≤ bestSum 2 [(1 : ℚ), 2] ∧
    ((1 : Nat) : ℚ) * bestAvg 1 [(1 : ℚ), 2] ≤
      (((1 : Nat) : ℚ) + 1) * bestAvg 2 [(1 : ℚ), 2] :=
  claim1_amended [1, 2] 1 (by norm_num) (by norm_num)

/-! ## Histogram Engine lemmas -/

theorem binWidth_pos (dp : Nat) : 0 < binWidth dp := by
  rw [binWidth]
  split <;> norm_num

theorem clampVal_le {lo hi v : ℚ} (h : lo ≤ hi) : clampVal lo hi v ≤ hi :=
  max_le h (min_le_left _ _)

theorem le_clampVal (lo hi v : ℚ) : lo ≤ clampVal lo hi v :=
  le_max_left _ _

/-- Every sample lands in a real bin: the clamped value's bin index is
below the bin count. -/
theorem binIndex_lt_binCount {lo hi : ℚ} (dp : Nat) (v : ℚ) (h : lo ≤ hi) :
    binIndex dp lo hi v < binCount dp lo hi := by
  rw [binIndex, binCount]
  have hw : 0 < binWidth dp := binWidth_pos dp
  have h1 : clampVal lo hi v - lo ≤ hi - lo := by
    have := clampVal_le (v := v) h
    linarith
  have h2 : (clampVal lo hi v - lo) / binWidth dp ≤
      (hi - lo) / binWidth dp := by gcongr
  have h3 : ⌊(clampVal lo hi v - lo) / binWidth dp⌋ ≤
      ⌈(hi - lo) / binWidth dp⌉ :=
    le_trans (Int.floor_le_floor h2) (Int.floor_le_ceil _)
  have h4 := Int.toNat_le_toNat h3
  omega

theorem length_incBin (bins : List Nat) (i : Nat) :
    (incBin bins i).length = bins.length :=
  List.length_set ..

theorem sum_incBin {bins : List Nat} {i : Nat} (h : i < bins.length) :
    (incBin bins i).sum = bins.sum + 1 := by
  induction bins generalizing i with
  | nil => simp at h
  | cons b bs ih =>
      cases i with
      | zero => simp [incBin]; omega
      | succ j =>
          have hj : j < bs.length := by simpa using h
          have : incBin (b :: bs) (j + 1) = b :: incBin bs j := by
            simp [incBin]
          rw [this, List.sum_cons, List.sum_cons, ih hj]
          omega

theorem getD_incBin {bins : List Nat} {j : Nat} (i : Nat)
    (h : j < bins.length) :
    (incBin bins j).getD i 0 = bins.getD i 0 + if j = i then 1 else 0 := by
  rw [incBin, List.getD_eq_getElem?_getD, List.getD_eq_getElem?_getD,
    List.getElem?_set]
  by_cases hji : j = i
  · subst hji
    simp [h]
  · simp [hji]

theorem sum_foldl_inc (dp : Nat) (lo hi : ℚ) (h : lo ≤ hi) :
    ∀ (xs : List ℚ) (bins : List Nat), bins.length = binCount dp lo hi →
      (xs.foldl (fun b v => incBin b (binIndex dp lo hi v)) bins).sum =
        bins.sum + xs.length := by
  intro xs
  induction xs with
  | nil => intro bins _; simp
  | cons v vs ih =>
      intro bins hlen
      have hidx : binIndex dp lo hi v < bins.length := by
        rw [hlen]; exact binIndex_lt_binCount dp v h
      rw [List.foldl_cons, ih _ (by rw [length_incBin, hlen]),
        sum_incBin hidx, List.length_cons]
      omega

theorem getD_foldl_inc (dp : Nat) (lo hi : ℚ) (i : Nat) :
    ∀ (xs : List ℚ) (bins : List Nat),
      (∀ v ∈ xs, binIndex dp lo hi v < bins.length) →
      (xs.foldl (fun b v => incBin b (binIndex dp lo hi v)) bins).getD i 0 =
        bins.getD i 0 + (xs.map (binIndex dp lo hi)).count i := by
  intro xs
  induction xs with
  | nil => intro bins _; simp
  | cons v vs ih =>
      intro bins hidx
      have hv : binIndex dp lo hi v < bins.length :=
        hidx v (List.mem_cons_self v vs)
      rw [List.foldl_cons,
        ih _ (fun w hw => by
          rw [length_incBin]
          exact hidx w (List.mem_cons_of_mem _ hw)),
        getD_incBin i hv, List.map_cons, List.count_cons]
      simp only [beq_iff_eq]
      omega

/-- The bins of `computeDistribution` count, for each bin index, how many
samples quantize into that index. -/
theorem computeDistribution_getD {dp : Nat} {lo hi : ℚ} (h : lo ≤ hi)
    (xs : List ℚ) (i : Nat) :
    (computeDistribution dp lo hi xs).getD i 0 =
      (xs.map (binIndex dp lo hi)).count i := by
  rw [computeDistribution,
    getD_foldl_inc dp lo hi i xs _ (fun v _ => by
      rw [List.length_replicate]
      exact binIndex_lt_binCount dp v h)]
  simp [List.getD_eq_getElem?_getD, List.getElem?_replicate]
  split <;> rfl

/-- Claim C2: `computeDistribution` conserves total duration: every sample
is clamped into the domain and lands in some bin, so the bins sum to the
sample count exactly. -/
theorem claim2_duration_conservation :
    ∀ (dp : Nat) (lo hi : ℚ) (xs : List ℚ), lo ≤ hi →
      (computeDistribution dp lo hi xs).sum = xs.length := by
  intro dp lo hi xs h
  rw [computeDistribution, sum_foldl_inc dp lo hi h xs _ (by simp)]
  simp

/-- Concrete instance of C2: two samples, one of them above the domain and
clamped, still sum to a total bin duration of 2. -/
theorem claim2_witness :
    (computeDistribution 0 0 2 [(0 : ℚ), 5]).sum = 2 := by
  have := claim2_duration_conservation 0 0 2 [(0 : ℚ), 5] (by norm_num)
  simpa using this

theorem binIndex_watts_100 : binIndex 0 0 2500 100 = 100 := by
  norm_num [binIndex, clampVal, binWidth]
  rfl

theorem binIndex_watts_200 : binIndex 0 0 2500 200 = 200 := by
  norm_num [binIndex, clampVal, binWidth]
  rfl

/-- Claim C3 (counterexample): on the spec's 10-second scenario recording
the samples total `7 * 100 + 3 * 200 = 1300`, so the overall 10-second
average is 130, not the 140 the spec asserts for `curve[10]`. -/
theorem claim3_counterexample :
    ¬ ((meanMaxCurve 0 scenarioSamples).getD 9 0 = 140) := by
  have e : (meanMaxCurve 0 scenarioSamples).getD 9 0 = 130 := by
    rw [meanMaxCurve_getD (by norm_num [scenarioSamples])]
    norm_num [scenarioSamples, bestAvg, bestSum, slidingSums, quantize,
      round_eq, max_def]
  rw [e]
  decide

/-- Claim C3 (amended): on the spec's scenario recording the mean-max curve
gives `curve[1] = 200`, `curve[3] = 200` and `curve[10] = 130` (the overall
average of 1300/10, consistent with the histogram), and the distribution
holds duration 7 in the bin of value 100 and duration 3 in the bin of
value 200. -/
theorem claim3_amended :
    (meanMaxCurve 0 scenarioSamples).getD 0 0 = 200 ∧
    (meanMaxCurve 0 scenarioSamples).getD 2 0 = 200 ∧
    (meanMaxCurve 0 scenarioSamples).getD 9 0 = 130 ∧
    (computeDistribution 0 0 2500 scenarioSamples).getD
      (binIndex 0 0 2500 100) 0 = 7 ∧
    (computeDistribution 0 0 2500 scenarioSamples).getD
      (binIndex 0 0 2500 200) 0 = 3 := by
  refine ⟨?_, ?_, ?_, ?_, ?_⟩
  · rw [meanMaxCurve_getD (by norm_num [scenarioSamples])]
    norm_num [scenarioSamples, bestAvg, bestSum, slidingSums, quantize,
      round_eq, max_def]
  · rw [meanMaxCurve_getD (by norm_num [scenarioSamples])]
    norm_num [scenarioSamples, bestAvg, bestSum, slidingSums, quantize,
      round_eq, max_def]
  · rw [meanMaxCurve_getD (by norm_num [scenarioSamples])]
    norm_num [scenarioSamples, bestAvg, bestSum, slidingSums, quantize,
      round_eq, max_def]
  · rw [computeDistribution_getD (by norm_num) scenarioSamples]
    rw [show scenarioSamples.map (binIndex 0 0 2500) =
        [100, 100, 100, 200, 200, 200, 100, 100, 100, 100] by
      simp [scenarioSamples, binIndex_watts_100, binIndex_watts_200]]
    rw [binIndex_watts_100]
    decide
  · rw [computeDistribution_getD (by norm_num) scenarioSamples]
    rw [show scenarioSamples.map (binIndex 0 0 2500) =
        [100, 100, 100, 200, 200, 200, 100, 100, 100, 100] by
      simp [scenarioSamples, binIndex_watts_100, binIndex_watts_200]]
    rw [binIndex_watts_200]
    decide

/-! ## Cache Store lemmas -/

theorem splitSizes_flatten :
    ∀ ls : List (List Nat), splitSizes (ls.map List.length) ls.flatten = some ls := by
  intro ls
  induction ls with
  | nil => rfl
  | cons b ls ih =>
      rw [List.map_cons, List.flatten_cons, splitSizes]
      rw [if_pos (by simp)]
      rw [List.take_left, List.drop_left, ih]
      rfl

theorem map_word_of_small {b : List Nat} (h : ∀ x ∈ b, x < 2 ^ 32) :
    b.map word = b := by
  calc b.map word = b.map id :=
        List.map_congr_left (fun x hx => Nat.mod_eq_of_lt (h x hx))
    _ = b := List.map_id b

/-- With every count and entry below `2^32`, the 32-bit storage is lossless:
the serialized artifact's header carries the true lengths and its body the
true entries. -/
theorem serialize_eq_of_small {c : RideFileCacheData} (h : smallData c) :
    serialize c = RideFileCacheVersion ::
      ((blocks c).map List.length ++ (blocks c).flatten) := by
  have h1 : (blocks c).map (fun b => word b.length) =
      (blocks c).map List.length :=
    List.map_congr_left (fun b hb => Nat.mod_eq_of_lt (h b hb).1)
  have h2 : (blocks c).map (fun b => b.map word) = blocks c := by
    calc (blocks c).map (fun b => b.map word) = (blocks c).map id :=
          List.map_congr_left (fun b hb => map_word_of_small (h b hb).2)
      _ = blocks c := List.map_id _
  rw [serialize, h1, h2]

/-- Reading back a freshly serialized artifact recovers the in-memory
arrays exactly. -/
theorem readCache_serialize (c : RideFileCacheData) (h : smallData c) :
    readCache (serialize c) = some c := by
  obtain ⟨x1, x2, x3, x4, x5, x6, x7, y1, y2, y3, y4, y5, y6, y7⟩ := c
  rw [serialize_eq_of_small h]
  have hsplit := splitSizes_flatten
    [x1, x2, x3, x4, x5, x6, x7, y1, y2, y3, y4, y5, y6, y7]
  simp only [List.map_cons, List.map_nil, List.flatten_cons,
    List.flatten_nil] at hsplit ⊢
  simp only [blocks, List.map_cons, List.map_nil, List.flatten_cons,
    List.flatten_nil, List.cons_append, List.nil_append]
  rw [readCache]
  rw [if_pos rfl]
  rw [readBody]
  rw [hsplit]

/-- Claim C4 (counterexample): the round trip is not the identity on every
in-memory state — an entry of `2^32` is truncated by the 32-bit storage
word and reads back as 0. -/
theorem claim4_counterexample :
    ¬ (readCache (serialize overflowCache) = some overflowCache) := by
  decide

/-- Claim C4 (amended): serializing the in-memory arrays and reading the
artifact back yields arrays identical to the originals, whenever every
array length and entry fits in a 32-bit storage word. -/
theorem claim4_roundtrip :
    ∀ c : RideFileCacheData, smallData c → readCache (serialize c) = some c :=
  fun c h => readCache_serialize c h

/-- Concrete instance of C4 on a small cache. -/
theorem claim4_witness : readCache (serialize exampleCache) = some exampleCache :=
  claim4_roundtrip exampleCache (by decide)

/-- Claim C10: the serialized artifact is exactly the fifteen-word header
(version, then the seven mean-max counts and seven distribution counts in
series order) followed by the array blocks — `15 + Σ counts` words in all,
with no room for the date-of-best vectors; reading it back therefore leaves
every per-channel date view empty. -/
theorem claim10_layout :
    ∀ c : RideFileCacheData, smallData c →
      (serialize c).length = 15 + ((blocks c).map List.length).sum ∧
      (serialize c).take 15 =
        RideFileCacheVersion :: (blocks c).map List.length ∧
      readCacheState (serialize c) = some ⟨c, List.replicate 7 []⟩ := by
  intro c h
  rw [serialize_eq_of_small h]
  refine ⟨?_, ?_, ?_⟩
  · simp [List.length_append, List.length_flatten, blocks]
    omega
  · rw [show (RideFileCacheVersion ::
        ((blocks c).map List.length ++ (blocks c).flatten)) =
        (RideFileCacheVersion :: (blocks c).map List.length) ++
          (blocks c).flatten by simp]
    exact List.take_left' (by simp [blocks])
  · rw [readCacheState, ← serialize_eq_of_small h, readCache_serialize c h]
    rfl

/-- Concrete instance of C10 on a small cache. -/
theorem claim10_witness :
    (serialize exampleCache).length =
      15 + ((blocks exampleCache).map List.length).sum ∧
    (serialize exampleCache).take 15 =
      RideFileCacheVersion :: (blocks exampleCache).map List.length ∧
    readCacheState (serialize exampleCache) =
      some ⟨exampleCache, List.replicate 7 []⟩ :=
  claim10_layout exampleCache (by decide)

/-- A stored artifact whose leading version word differs from the current
engine version is rejected by the reader. -/
theorem readCache_version_mismatch {v : Nat} (rest : List Nat)
    (hv : v ≠ RideFileCacheVersion) : readCache (v :: rest) = none := by
  rw [readCache]
  rw [if_neg hv]

/-- Claim C5: a cached artifact with any other stored version number (lower
or higher) triggers a full recompute: the consumer gets the freshly computed
arrays for every channel, the artifact is overwritten wholesale with their
serialization, and the new artifact leads with the current version. -/
theorem claim5_version_mismatch :
    ∀ (d : List Nat) (v : Nat) (fresh : RideFileCacheData),
      d.head? = some v → v ≠ RideFileCacheVersion →
      refreshCache (some d) fresh = (fresh, serialize fresh) ∧
      (serialize fresh).head? = some RideFileCacheVersion := by
  intro d v fresh hh hv
  obtain ⟨rest, rfl⟩ : ∃ rest, d = v :: rest := by
    cases d with
    | nil => simp at hh
    | cons a rest =>
        refine ⟨rest, ?_⟩
        simp at hh
        rw [hh]
  refine ⟨?_, rfl⟩
  rw [refreshCache, readCache_version_mismatch rest hv]

/-- Concrete instance of C5: a version-2 artifact is discarded and replaced
by a recomputed, version-1 artifact. -/
theorem claim5_witness :
    refreshCache (some [2]) exampleCache =
      (exampleCache, serialize exampleCache) ∧
    (serialize exampleCache).head? = some RideFileCacheVersion :=
  claim5_version_mismatch [2] 2 exampleCache rfl (by decide)

/-! ## Derived-Channel lemmas -/

theorem getD_zero_of_all_zero {bins : List Nat} (h : ∀ b ∈ bins, b = 0)
    (j : Nat) : bins.getD j 0 = 0 := by
  rw [List.getD_eq_getElem?_getD]
  cases hj : bins[j]? with
  | none => rfl
  | some b => simpa using h b (List.getElem?_mem hj)

theorem addBin_all_zero {bins : List Nat} (h : ∀ b ∈ bins, b = 0)
    (j : Nat) : ∀ b ∈ addBin bins j 0, b = 0 := by
  intro b hb
  rcases List.mem_or_eq_of_mem_set hb with hmem | heq
  · exact h b hmem
  · rw [heq, getD_zero_of_all_zero h j]

theorem foldl_addBin_all_zero (dp : Nat) (lo hi : ℚ) (pd : List Nat)
    (hpd : ∀ i, pd.getD i 0 = 0) :
    ∀ (is : List Nat) (bins : List Nat), (∀ b ∈ bins, b = 0) →
      ∀ b ∈ is.foldl
        (fun acc (i : Nat) =>
          addBin acc (binIndex dp lo hi ((lo + (i : ℚ) * binWidth dp) ^ 3))
            (pd.getD i 0)) bins, b = 0 := by
  intro is
  induction is with
  | nil => intro bins hb; simpa using hb
  | cons i is ih =>
      intro bins hb
      rw [List.foldl_cons]
      apply ih
      rw [hpd i]
      exact addBin_all_zero hb _

theorem replicate_zero_getD (n i : Nat) :
    (List.replicate n (0 : Nat)).getD i 0 = 0 := by
  rw [List.getD_eq_getElem?_getD, List.getElem?_replicate]
  split <;> rfl

/-- Claim C7: when the power channel has zero samples both derived channels
are entirely zero: the normalized-power transform is empty so its curve is
zero-length and its histogram all-zero, and the xPower curve is zero-length
while its histogram — redistributed from the (all-zero) power histogram —
is all-zero as well.  Each derived result is a function of the power
channel's output, so it can only be formed after that output exists. -/
theorem claim7_derived_empty :
    ∀ (dp : Nat) (lo hi : ℚ),
      npSampleTransform [] = [] ∧
      computeMeanMaxNP dp [] = [] ∧
      (∀ b ∈ computeDistributionNP dp lo hi [], b = 0) ∧
      computeMeanMaxXPower dp [] = [] ∧
      (∀ b ∈ computeDistributionXPower dp lo hi
          (computeDistribution dp lo hi []), b = 0) := by
  intro dp lo hi
  refine ⟨rfl, rfl, ?_, rfl, ?_⟩
  · intro b hb
    exact List.eq_of_mem_replicate
      (by simpa [computeDistributionNP, computeDistribution,
        npSampleTransform, slidingAvg, slidingSums] using hb)
  · intro b hb
    have hzero : computeDistribution dp lo hi [] =
        List.replicate (binCount dp lo hi) 0 := rfl
    rw [computeDistributionXPower] at hb
    exact foldl_addBin_all_zero dp lo hi _
      (by rw [hzero]; exact fun i => replicate_zero_getD _ i) _ _
      (fun b hb' => List.eq_of_mem_replicate hb') b hb

/-! ## Aggregator lemmas -/

theorem foldl_betterAt_eq_pairs (d : Nat) :
    ∀ (recs : List DayCache) (acc : Option (ℤ × Nat)),
      recs.foldl (betterAt d) acc = (pairsAt d recs).foldl pickBetter acc := by
  intro recs
  induction recs with
  | nil => intro acc; rfl
  | cons r recs ih =>
      intro acc
      cases hm : r.meanMax[d]? with
      | none =>
          rw [List.foldl_cons, ih, betterAt, hm]
          simp only [pairsAt, List.filterMap_cons, hm, Option.map_none']
      | some v =>
          rw [List.foldl_cons, ih, betterAt, hm]
          simp only [pairsAt, List.filterMap_cons, hm, Option.map_some']
          rw [List.foldl_cons]

/-- What a `pickBetter` fold returns: a candidate (or the seed) whose value
bounds every candidate, and whose date is earliest among candidates of the
same value. -/
theorem pickFold_spec :
    ∀ (ps : List (ℤ × Nat)) (acc : Option (ℤ × Nat)) (v : ℤ) (dt : Nat),
      ps.foldl pickBetter acc = some (v, dt) →
      (acc = some (v, dt) ∨ (v, dt) ∈ ps) ∧
      (∀ p ∈ ps, p.1 < v ∨ (p.1 = v ∧ dt ≤ p.2)) ∧
      (∀ bv bd, acc = some (bv, bd) → bv < v ∨ (bv = v ∧ dt ≤ bd)) := by
  intro ps
  induction ps with
  | nil =>
      intro acc v dt h
      simp only [List.foldl_nil] at h
      subst h
      refine ⟨Or.inl rfl, by simp, ?_⟩
      intro bv bd hbv
      injection hbv with hbv
      injection hbv with h1 h2
      right
      exact ⟨h1.symm, le_of_eq h2⟩
  | cons p rest ih =>
      intro acc v dt h
      rw [List.foldl_cons] at h
      obtain ⟨hmem, hbound, haccb⟩ := ih (pickBetter acc p) v dt h
      obtain ⟨pv, pd⟩ := p
      have hfromq : ∀ q : ℤ × Nat, pickBetter acc (pv, pd) = some q →
          (q = (v, dt) ∨ (v, dt) ∈ rest) →
          (q.1 < v ∨ (q.1 = v ∧ dt ≤ q.2)) → True := fun _ _ _ _ => trivial
      rcases hacc : acc with _ | ⟨bv, bd⟩
      · rw [hacc] at hmem haccb
        have hq : pickBetter none (pv, pd) = some (pv, pd) := rfl
        rw [hq] at hmem haccb
        have hpb : pv < v ∨ (pv = v ∧ dt ≤ pd) := by
          simpa using haccb pv pd rfl
        refine ⟨?_, ?_, ?_⟩
        · rcases hmem with h1 | h1
          · injection h1 with h1
            right
            rw [← h1]
            exact List.mem_cons_self _ _
          · exact Or.inr (List.mem_cons_of_mem _ h1)
        · intro q hq'
          rcases List.mem_cons.mp hq' with rfl | hq''
          · exact hpb
          · exact hbound q hq''
        · intro bv bd hbv
          simp at hbv
      · rw [hacc] at hmem haccb
        by_cases h1 : bv < pv
        · have hq : pickBetter (some (bv, bd)) (pv, pd) = some (pv, pd) := by
            rw [pickBetter]
            rw [if_pos h1]
          rw [hq] at hmem haccb
          have hpb : pv < v ∨ (pv = v ∧ dt ≤ pd) := by
            simpa using haccb pv pd rfl
          refine ⟨?_, ?_, ?_⟩
          · rcases hmem with h2 | h2
            · injection h2 with h2
              right
              rw [← h2]
              exact List.mem_cons_self _ _
            · exact Or.inr (List.mem_cons_of_mem _ h2)
          · intro q hq'
            rcases List.mem_cons.mp hq' with rfl | hq''
            · exact hpb
            · exact hbound q hq''
          · intro bv' bd' hbd'
            injection hbd' with hbd'
            injection hbd' with he1 he2
            subst he1
            subst he2
            rcases hpb with h2 | ⟨h2, h3⟩
            · exact Or.inl (lt_trans h1 h2)
            · exact Or.inl (by rw [← h2]; exact h1)
        · by_cases h2 : bv = pv ∧ pd < bd
          · have hq : pickBetter (some (bv, bd)) (pv, pd) = some (pv, pd) := by
              rw [pickBetter]
              rw [if_neg h1, if_pos h2]
            rw [hq] at hmem haccb
            have hpb : pv < v ∨ (pv = v ∧ dt ≤ pd) := by
              simpa using haccb pv pd rfl
            refine ⟨?_, ?_, ?_⟩
            · rcases hmem with h3 | h3
              · injection h3 with h3
                right
                rw [← h3]
                exact List.mem_cons_self _ _
              · exact Or.inr (List.mem_cons_of_mem _ h3)
            · intro q hq'
              rcases List.mem_cons.mp hq' with rfl | hq''
              · exact hpb
              · exact hbound q hq''
            · intro bv' bd' hbd'
              injection hbd' with hbd'
              injection hbd' with he1 he2
              subst he1
              subst he2
              obtain ⟨he, hd⟩ := h2
              rcases hpb with h3 | ⟨h3, h4⟩
              · exact Or.inl (by rw [he]; exact h3)
              · exact Or.inr ⟨by rw [he, h3], by omega⟩
          · have hq : pickBetter (some (bv, bd)) (pv, pd) = some (bv, bd) := by
              rw [pickBetter]
              rw [if_neg h1, if_neg h2]
            rw [hq] at hmem haccb
            have hab : bv < v ∨ (bv = v ∧ dt ≤ bd) := by
              simpa using haccb bv bd rfl
            refine ⟨?_, ?_, ?_⟩
            · rcases hmem with h3 | h3
              · injection h3 with h3
                exact Or.inl (by rw [h3])
              · exact Or.inr (List.mem_cons_of_mem _ h3)
            · intro q hq'
              rcases List.mem_cons.mp hq' with rfl | hq''
              · have hple : pv ≤ bv := le_of_not_lt h1
                rcases lt_or_eq_of_le hple with h3 | h3
                · rcases hab with h4 | ⟨h4, h5⟩
                  · exact Or.inl (lt_trans h3 h4)
                  · exact Or.inl (by rw [← h4]; exact h3)
                · have hd : bd ≤ pd := by
                    rcases Nat.lt_or_ge pd bd with h4 | h4
                    · exact absurd ⟨h3.symm, h4⟩ h2
                    · exact h4
                  rcases hab with h4 | ⟨h4, h5⟩
                  · exact Or.inl (by rw [h3]; exact h4)
                  · exact Or.inr ⟨by rw [h3]; exact h4, by omega⟩
              · exact hbound q hq''
            · intro bv' bd' hbd'
              injection hbd' with hbd'
              injection hbd' with he1 he2
              subst he1
              subst he2
              exact hab

theorem addVec_getD (xs : List Nat) :
    ∀ (ys : List Nat) (i : Nat),
      (addVec xs ys).getD i 0 = xs.getD i 0 + ys.getD i 0 := by
  induction xs with
  | nil => intro ys i; simp [addVec]
  | cons x xs ih =>
      intro ys i
      cases ys with
      | nil => simp [addVec]
      | cons y ys =>
          cases i with
          | zero => simp [addVec]
          | succ j => simpa [addVec] using ih ys j

theorem foldl_addVec_getD :
    ∀ (recs : List DayCache) (acc : List Nat) (i : Nat),
      ((recs.foldl (fun a r => addVec a r.dist) acc).getD i 0) =
        acc.getD i 0 + (recs.map (fun r => r.dist.getD i 0)).sum := by
  intro recs
  induction recs with
  | nil => intro acc i; simp
  | cons r recs ih =>
      intro acc i
      rw [List.foldl_cons, ih, addVec_getD, List.map_cons, List.sum_cons]
      omega

/-- Claim C8: the aggregate curve at duration `d` is attained by some
in-range recording, bounds every in-range recording's value at `d`, and
carries the earliest date among recordings attaining it; the aggregate
distribution sums the constituent bins; and on the spec's two-recording
scenario the aggregate `curve[5]` is 300 dated day 2. -/
theorem claim8_aggregate :
    (∀ (d : Nat) (recs : List DayCache) (v : ℤ) (dt : Nat),
        bestAt d recs = some (v, dt) →
          (∃ r ∈ recs, r.meanMax[d]? = some v ∧ r.date = dt) ∧
          (∀ r ∈ recs, ∀ w : ℤ, r.meanMax[d]? = some w → w ≤ v) ∧
          (∀ r ∈ recs, r.meanMax[d]? = some v → dt ≤ r.date)) ∧
    (∀ (recs : List DayCache) (i : Nat),
        (aggDist recs).getD i 0 =
          (recs.map (fun r => r.dist.getD i 0)).sum) ∧
    bestAt 5 [day1Cache, day2Cache] = some (300, 2) := by
  refine ⟨?_, ?_, by decide⟩
  · intro d recs v dt h
    rw [bestAt, foldl_betterAt_eq_pairs d recs none] at h
    obtain ⟨hmem, hbound, _⟩ := pickFold_spec (pairsAt d recs) none v dt h
    have hmem' : (v, dt) ∈ pairsAt d recs := by
      rcases hmem with h1 | h1
      · simp at h1
      · exact h1
    refine ⟨?_, ?_, ?_⟩
    · obtain ⟨r, hr, hfr⟩ := List.mem_filterMap.mp hmem'
      obtain ⟨w, hw, hpair⟩ := Option.map_eq_some'.mp hfr
      injection hpair with h1 h2
      exact ⟨r, hr, by rw [hw, h1], h2⟩
    · intro r hr w hw
      have hp : (w, r.date) ∈ pairsAt d recs :=
        List.mem_filterMap.mpr ⟨r, hr, by rw [hw]; rfl⟩
      rcases hbound _ hp with h1 | ⟨h1, _⟩
      · exact le_of_lt h1
      · exact le_of_eq h1
    · intro r hr hw
      have hp : (v, r.date) ∈ pairsAt d recs :=
        List.mem_filterMap.mpr ⟨r, hr, by rw [hw]; rfl⟩
      rcases hbound _ hp with h1 | ⟨_, h1⟩
      · exact absurd h1 (lt_irrefl v)
      · exact h1
  · intro recs i
    rw [aggDist, foldl_addVec_getD]
    simp

/-- Concrete instance of C8: the best-of-range value 300 is attained on day
2, every constituent value is bounded by it, and the first aggregate bin is
the sum `1 + 3` of the two recordings' first bins. -/
theorem claim8_witness :
    (∃ r ∈ [day1Cache, day2Cache], r.meanMax[5]? = some 300 ∧ r.date = 2) ∧
    (aggDist [day1Cache, day2Cache]).getD 0 0 = 4 := by
  constructor
  · exact (claim8_aggregate.1 5 [day1Cache, day2Cache] 300 2 (by decide)).1
  · rw [claim8_aggregate.2.1 [day1Cache, day2Cache] 0]
    decide

end RideFileCache
